import Mathlib

/-!
Verification development for the pentops/log.go structured-logging core.

The development shallowly embeds, in Lean, the parts of the repository that
carry algorithmic content:

* the order-preserving override merge used by `MapContext.WithAttrs`
  (context attrs, newest variant, the `log/slog`-based one);
* the `CallbackLogger` emission pipeline: level filter, collector
  aggregation (`extractFields`), `log`;
* the JSON renderer (`attrMap.MarshalJSON`, `jsonFormatter`) and its
  degrade-on-encoding-failure path;
* the pretty stream compactor (`Printer.PrintRawLine`, `writef`,
  `PrintStandardLine`) and its byte-stream adapter (`writeBuffer.Write`).

Modelling conventions:

* JSON values are the inductive `Jv`; parsed Go `map[string]any` objects are
  `JFields`, an association list kept in canonical form (unique keys), so
  structural equality of `JFields` plays the role of `reflect.DeepEqual` on
  the parsed maps.
* `slog.Attr` is `Attr`; a value is `AVal`, either a JSON-encodable value
  (`AVal.jv`) or a value whose `MarshalJSON` fails (`AVal.unencodable`),
  which models Go values that `encoding/json` cannot encode.
* Go slices are Lean lists, Go strings are Lean strings (or `List Char`
  where byte-level splitting matters), `time.Time` is an opaque RFC3339
  string, and a `context.Context` attribute slot is `Option (List Attr)`
  (`none` models a context with no attached list).
* Output writers are modelled by returning the list of emitted output
  tokens (`Out`); terminal colour escapes are presentational and abstracted
  away (the token carries the plain level text).
-/

namespace LogGo

mutual

/-- JSON value, with objects as association lists (`JFields`).
Models the values stored in parsed `map[string]any` and `slog` attrs. -/
inductive Jv where
  | str (s : String)
  | int (n : Int)
  | bool (b : Bool)
  | null
  | obj (fields : JFields)
  deriving DecidableEq, Repr

/-- Association-list representation of a parsed JSON object / Go
`map[string]any`, kept in canonical form with unique keys. -/
inductive JFields where
  | nil
  | cons (k : String) (v : Jv) (rest : JFields)
  deriving DecidableEq, Repr

end

/-- First value stored under key `k`, mirroring Go map lookup on the
canonical (unique-key) representation. -/
def JFields.get? (k : String) : JFields → Option Jv
  | .nil => none
  | .cons k' v rest => if k' = k then some v else JFields.get? k rest

/-- Removal of key `k`, mirroring `delete(fields, k)` on a Go map. -/
def JFields.erase (k : String) : JFields → JFields
  | .nil => .nil
  | .cons k' v rest =>
    if k' = k then JFields.erase k rest else .cons k' v (JFields.erase k rest)

/-- Number of keys, mirroring `len(fields)` on a Go map in canonical form. -/
def JFields.size : JFields → Nat
  | .nil => 0
  | .cons _ _ rest => 1 + JFields.size rest

/-- The keys of a JSON object in representation order. -/
def JFields.keys : JFields → List String
  | .nil => []
  | .cons k _ rest => k :: JFields.keys rest

/-- Attribute value: either a JSON-encodable value or one on which
`json.Marshal` fails (such as the repository test type `nojson`). -/
inductive AVal where
  | jv (j : Jv)
  | unencodable (tag : String)
  deriving DecidableEq, Repr

/-- Model of `slog.Attr`: one key/value log field. -/
structure Attr where
  key : String
  value : AVal
  deriving DecidableEq, Repr

/-- Zero value of `slog.Attr` in Go: empty key, nil value.  This is what
`make([]slog.Attr, n)` fills the slice with. -/
def zeroAttr : Attr := ⟨"", AVal.jv Jv.null⟩

/-- Context attribute slot: `none` models a context with no attached list,
as read by `parent.Value(simpleContextKey).([]slog.Attr)`. -/
def Ctx := Option (List Attr)

/-! ### Go map model used by `MapContext.WithAttrs` (part_009)

`newAttrKeys` is a `map[string]slog.Attr`.  The code only looks keys up,
tests membership and deletes, so the map is modelled as an association
list with overwrite-on-insert; lookup order is unobservable. -/

/-- Map insert with overwrite, mirroring `m[k] = attr`. -/
def mapInsert (m : List Attr) (a : Attr) : List Attr :=
  if m.any (fun b => b.key == a.key) then
    m.map (fun b => if b.key == a.key then a else b)
  else
    m ++ [a]

/-- Map lookup, mirroring `m[k]`. -/
def mapLookup (m : List Attr) (k : String) : Option Attr :=
  m.find? (fun b => b.key == k)

/-- Map delete, mirroring `delete(m, k)`. -/
def mapDelete (m : List Attr) (k : String) : List Attr :=
  m.filter (fun b => !(b.key == k))

/-- Model of `newAttrKeys := map[string]slog.Attr{}; for _, attr := range
attrs { newAttrKeys[attr.Key] = attr }` in `MapContext.WithAttrs`. -/
def buildKeyMap (attrs : List Attr) : List Attr :=
  attrs.foldl mapInsert []

/-- Model of the first loop of `MapContext.WithAttrs`: walk `existing`,
replacing attrs whose key is in the map (and deleting the key from the
map), keeping the rest.  Returns the final map and the accumulated list. -/
def mergeLoop (m : List Attr) : List Attr → List Attr × List Attr
  | [] => (m, [])
  | a :: rest =>
    match mapLookup m a.key with
    | some b =>
      let r := mergeLoop (mapDelete m a.key) rest
      (r.1, b :: r.2)
    | none =>
      let r := mergeLoop m rest
      (r.1, a :: r.2)

/-- Model of the merge in `MapContext.WithAttrs` when a list is already
attached: first loop over `existing`, then append the attrs of `attrs`
whose key is still in the map, in `attrs` order. -/
def mergeAttrs (existing attrs : List Attr) : List Attr :=
  let r := mergeLoop (buildKeyMap attrs) existing
  r.2 ++ attrs.filter (fun a => (mapLookup r.1 a.key).isSome)

/-- Model of `MapContext.WithAttrs` on the context attribute slot: when no
list is attached the new attrs are stored unchanged, otherwise the merge
runs. -/
def withAttrs : Ctx → List Attr → List Attr
  | none, attrs => attrs
  | some existing, attrs => mergeAttrs existing attrs

/-- Insertion sort on strings, mirroring `sort.StringSlice(keys).Sort()`
(ascending lexicographic order). -/
def insertSorted (s : String) : List String → List String
  | [] => [s]
  | t :: rest => if s < t then s :: t :: rest else t :: insertSorted s rest

/-- Ascending sort of the key list, as `sort.StringSlice(keys).Sort()`. -/
def sortKeys (keys : List String) : List String :=
  keys.foldr insertSorted []

/-- Model of `mapToAttrs` (part_009 lines 109-121).  The Go code collects
and sorts the map keys, then does `attrs := make([]slog.Attr, len(keys))`
followed by `append`, so the result starts with `len(keys)` zero-valued
attrs.  The input is the `map[string]any` argument in canonical
(unique-key) association-list form. -/
def mapToAttrs (fields : List (String × AVal)) : List Attr :=
  let keys := sortKeys (fields.map Prod.fst)
  let attrs := List.replicate keys.length zeroAttr
  attrs ++ keys.map (fun k =>
    ⟨k, ((fields.find? (fun p => p.1 == k)).map Prod.snd).getD (AVal.jv Jv.null)⟩)

/-- Model of `WithFields(ctx, m)` for the `map[string]any` argument form:
`collectArgs` turns the map into attrs via `mapToAttrs`, and
`DefaultContext.WithAttrs` attaches the merged list. -/
def withFieldsMap (ctx : Ctx) (fields : List (String × AVal)) : List Attr :=
  withAttrs ctx (mapToAttrs fields)

/-- Specification-side merge, written from the words of the contract in
spec section 4.1 (and claim C1): shared keys keep their position in
`existing` with the value from `attrs`; keys only in `existing` are kept;
keys only in `attrs` are appended in `attrs` order.  Used to compare the
code merge against the specified one. -/
def mergeSpec (existing attrs : List Attr) : List Attr :=
  existing.map (fun a =>
    match attrs.find? (fun b => b.key == a.key) with
    | some b => b
    | none => a)
  ++ attrs.filter (fun b => !(existing.any (fun a => a.key == b.key)))

/-- Key-uniqueness of an attribute list (the AttributeList invariant of
spec section 3). -/
def keyUnique (l : List Attr) : Prop :=
  (l.map Attr.key).Nodup

instance (l : List Attr) : Decidable (keyUnique l) := by
  unfold keyUnique
  infer_instance

/-- Well-formedness of an AttributeList per spec section 3: all keys
non-empty, no two elements share a key. -/
def wellFormed (l : List Attr) : Prop :=
  (∀ a ∈ l, a.key ≠ "") ∧ keyUnique l

instance (l : List Attr) : Decidable (wellFormed l) := by
  unfold wellFormed
  infer_instance

/-! ### Emitter model (`CallbackLogger`, part_008) -/

/-- slog levels as integers: Debug = -4, Info = 0, Warn = 4, Error = 8. -/
def levelDebug : Int := -4

/-- slog Info level. -/
def levelInfo : Int := 0

/-- slog Warn level. -/
def levelWarn : Int := 4

/-- slog Error level. -/
def levelError : Int := 8

/-- Helper of `slog.Level.String()`: base name plus signed offset when the
level is off the named value. -/
def levelOffsetStr (base : String) (v : Int) : String :=
  if v = 0 then base
  else if v > 0 then base ++ "+" ++ toString v
  else base ++ toString v

/-- Model of `slog.Level.String()`. -/
def levelString (l : Int) : String :=
  if l < levelInfo then levelOffsetStr "DEBUG" (l - levelDebug)
  else if l < levelWarn then levelOffsetStr "INFO" (l - levelInfo)
  else if l < levelError then levelOffsetStr "WARN" (l - levelWarn)
  else levelOffsetStr "ERROR" (l - levelError)

/-- One invocation of the renderer callback: the arguments the
`CallbackLogger` passes to its `Callback` (`LogFunc`). -/
structure LogCall where
  level : String
  message : String
  fields : List Attr
  deriving DecidableEq, Repr

/-- Model of `CallbackLogger`: severity threshold plus the ordered
collector list.  A collector is a function from the context slot to an
attribute list (`ContextCollector.LogFieldsFromContext`). -/
structure CallbackLogger where
  level : Int
  collectors : List (Ctx → List Attr)

/-- Model of `CallbackLogger.extractFields`: concatenate every registered
collector output against the context, in registration order. -/
def extractFields (collectors : List (Ctx → List Attr)) (ctx : Ctx) : List Attr :=
  collectors.foldl (fun fields cb => fields ++ cb ctx) []

/-- Model of `CallbackLogger.log`: return early below the threshold,
otherwise invoke the callback once with the aggregated fields.  The
result is the callback invocation, `none` when the entry is filtered. -/
def CallbackLogger.log (sl : CallbackLogger) (ctx : Ctx) (level : Int) (msg : String) :
    Option LogCall :=
  if level < sl.level then none
  else some ⟨levelString level, msg, extractFields sl.collectors ctx⟩

/-- Model of `CallbackLogger.Debug`. -/
def CallbackLogger.debug (sl : CallbackLogger) (ctx : Ctx) (msg : String) : Option LogCall :=
  sl.log ctx levelDebug msg

/-- Model of `CallbackLogger.Info`. -/
def CallbackLogger.info (sl : CallbackLogger) (ctx : Ctx) (msg : String) : Option LogCall :=
  sl.log ctx levelInfo msg

/-- Model of `CallbackLogger.Warn`. -/
def CallbackLogger.warn (sl : CallbackLogger) (ctx : Ctx) (msg : String) : Option LogCall :=
  sl.log ctx levelWarn msg

/-- Model of `CallbackLogger.Error`. -/
def CallbackLogger.error (sl : CallbackLogger) (ctx : Ctx) (msg : String) : Option LogCall :=
  sl.log ctx levelError msg

/-! ### JSON renderer model (`attrMap`, `logEntry`, `jsonFormatter`, part_008) -/

/-- Model of a `logEntry` value: level, time (opaque RFC3339 text),
message, and the attribute list (`attrMap`). -/
structure LogEntry where
  level : String
  time : String
  message : String
  fields : List Attr
  deriving DecidableEq, Repr

/-- Result of `json.Marshal(kv.Value.Any())` on one attribute value:
encodable values yield their JSON value, unencodable ones an error. -/
def marshalValue : AVal → Except String Jv
  | .jv j => .ok j
  | .unencodable tag => .error tag

/-- Model of `attrMap.MarshalJSON`: write the fields as a JSON object in
list order, failing as soon as one value fails to encode. -/
def attrMapMarshalJSON : List Attr → Except String JFields
  | [] => .ok .nil
  | a :: rest =>
    match marshalValue a.value with
    | .error e => .error e
    | .ok j =>
      match attrMapMarshalJSON rest with
      | .error e => .error e
      | .ok fs => .ok (.cons a.key j fs)

/-- Model of `json.Marshal(entry)` on a `logEntry`: the struct marshals to
an object with keys level, time, message, fields in struct order; only
the fields object can fail. -/
def marshalLogEntry (e : LogEntry) : Except String Jv :=
  match attrMapMarshalJSON e.fields with
  | .error err => .error err
  | .ok fj =>
    .ok (Jv.obj (.cons "level" (.str e.level)
      (.cons "time" (.str e.time)
        (.cons "message" (.str e.message)
          (.cons "fields" (.obj fj) .nil)))))

/-- Model of `jsonFormatter` (part_008 lines 404-416): marshal the entry;
on error re-marshal a degraded entry carrying only level, time and
message (its nil `attrMap` marshals to an empty object), ignoring the
second error as the Go code does.  One JSON line is always written. -/
def jsonFormatter (e : LogEntry) : Jv :=
  match marshalLogEntry e with
  | .ok j => j
  | .error _ =>
    match marshalLogEntry { e with fields := [] } with
    | .ok j => j
    | .error _ => Jv.null

/-- Whether `json.Marshal` succeeds on the value. -/
def AVal.encodable : AVal → Bool
  | .jv _ => true
  | .unencodable _ => false

/-- All attribute values of the list are JSON-encodable. -/
def allEncodable (l : List Attr) : Prop :=
  ∀ a ∈ l, a.value.encodable = true

instance (l : List Attr) : Decidable (allEncodable l) := by
  unfold allEncodable
  infer_instance

/-- JSON image of an attribute list under successful encoding, in list
order. -/
def fieldsToJ : List Attr → JFields
  | [] => .nil
  | a :: rest =>
    .cons a.key (match a.value with | .jv j => j | .unencodable _ => Jv.null)
      (fieldsToJ rest)

/-- Parse a rendered JSON log line back: read level and message strings
and the fields object out of the top-level object. -/
def parseEntry : Jv → Option (String × String × JFields)
  | .obj fs =>
    match fs.get? "level", fs.get? "message", fs.get? "fields" with
    | some (.str lv), some (.str ms), some (.obj inner) => some (lv, ms, inner)
    | _, _, _ => none
  | _ => none

/-! ### Stream compactor model (`pretty.Printer`, part_006 / part_000) -/

/-- Output tokens emitted by the printer.  `newline` is a bare newline
(dot-run terminator), `sep` the `========` separator line, `line` a
prefixed text line from `writef`, `dot` the compact duplicate marker
written without a newline, and `fieldLines` the per-attribute lines of
`PrintStandardLine` (their relative order is Go map iteration order and
is abstracted into one token). -/
inductive Out where
  | newline
  | sep
  | line (s : String)
  | dot
  | fieldLines (fs : JFields)
  deriving DecidableEq, Repr

/-- Model of the `Printer` state: constructor option `pfx` (the Go
`prefix` field), the dot-run flag `didDots`, and the retained snapshot
`lastLine` (`none` models the nil map of a fresh printer). -/
structure Printer where
  pfx : String
  didDots : Bool
  lastLine : Option JFields
  deriving DecidableEq, Repr

/-- Model of `Printer.writef`: terminate a pending dot-run with a newline,
print the separator, then the prefixed line. -/
def writef (p : Printer) (namePfx line : String) : Printer × List Out :=
  let flush : List Out := if p.didDots then [Out.newline] else []
  let p1 : Printer := { p with didDots := false }
  let np := if p.pfx ≠ "" then p.pfx ++ " " ++ namePfx else namePfx
  (p1, flush ++ [Out.sep] ++
    [if np ≠ "" then Out.line (np ++ ": " ++ line) else Out.line line])

/-- Model of `Printer.PrintStandardLine`: a `writef` header line carrying
the level and message (colour escapes abstracted away), followed by the
per-attribute lines. -/
def printStandardLine (p : Printer) (namePfx level message : String)
    (fields : JFields) : Printer × List Out :=
  let r := writef p namePfx (level ++ ": " ++ message)
  (r.1, r.2 ++ [Out.fieldLines fields])

/-- One ingested line, as the compactor discriminates it: `text` is a
payload that does not begin with a brace, `invalid` begins with a brace
but fails `json.Unmarshal`, and `json` carries the raw text together
with the parsed object in canonical form.  The parsing itself is done by
`encoding/json` and is outside the model. -/
inductive RawLine where
  | text (s : String)
  | invalid (s : String)
  | json (raw : String) (fields : JFields)
  deriving DecidableEq, Repr

/-- Model of `Printer.PrintRawLine` (part_006 lines 123-161).  Notes kept
faithful to the source: in the free-text branch the code clears
`didDots` and resets `lastLine` before calling `writef`, so `writef`
sees `didDots = false`; in the changed-entry branch the dot-run is
terminated with a newline before re-rendering (the Go code prints that
newline with `fmt.Printf`, hence to stdout; the model unifies the sinks
into one token stream, as in the stdout-printing logcat main). -/
def printRawLine (p : Printer) (namePfx : String) : RawLine → Printer × List Out
  | .text s =>
    let p1 : Printer := { p with didDots := false, lastLine := some .nil }
    writef p1 namePfx s
  | .invalid s =>
    writef p namePfx ("<invalid JSON> " ++ s)
  | .json raw fields =>
    let f := fields.erase "time"
    if p.lastLine == some f then
      ({ p with didDots := true }, [Out.dot])
    else
      let p1 : Printer := { p with lastLine := some f }
      let flush : List Out := if p1.didDots then [Out.newline] else []
      let p2 : Printer := { p1 with didDots := false }
      match f.get? "level", f.get? "message", f.get? "fields" with
      | some (.str lv), some (.str ms), some (.obj inner) =>
        if f.size = 3 then
          let r := printStandardLine p2 namePfx lv ms inner
          (r.1, flush ++ r.2)
        else
          let r := writef p2 namePfx raw
          (r.1, flush ++ r.2)
      | _, _, _ =>
        let r := writef p2 namePfx raw
        (r.1, flush ++ r.2)

/-- Feed a sequence of lines through `printRawLine`, accumulating the
emitted output tokens. -/
def printLines (p : Printer) (namePfx : String) : List RawLine → Printer × List Out
  | [] => (p, [])
  | l :: rest =>
    let r := printRawLine p namePfx l
    let r2 := printLines r.1 namePfx rest
    (r2.1, r.2 ++ r2.2)

/-- Fresh printer as built by `NewPrinter` with no options: empty
constructor prefix, no dot-run, nil snapshot. -/
def newPrinter : Printer := ⟨"", false, none⟩

/-! ### Byte-stream adapter (`writeBuffer.Write`, part_006 lines 98-113) -/

/-- Helper of `splitNL`: prepend a character to the first segment. -/
def consFirst (c : Char) : List (List Char) → List (List Char)
  | [] => [[c]]
  | h :: t => (c :: h) :: t

/-- Model of `strings.Split(s, "\n")` on character lists: the list of
newline-separated segments; always non-empty, and the last segment is
the text after the final newline. -/
def splitNL (l : List Char) : List (List Char) :=
  l.foldr (fun c r => if c = '\n' then [] :: r else consFirst c r) [[]]

/-- Model of one `writeBuffer.Write` call: append the data to the buffer;
if the buffer now contains a newline, forward every complete non-empty
line in order (the code skips lines equal to the empty string) and
retain the text after the last newline. -/
def writeBufferWrite (buffer data : List Char) : List Char × List (List Char) :=
  let b := buffer ++ data
  if b.contains '\n' then
    let lines := splitNL b
    (lines.getLastD [], lines.dropLast.filter (fun l => !l.isEmpty))
  else
    (b, [])

/-- Feed a sequence of writes through `writeBufferWrite` starting from the
empty buffer, accumulating the lines forwarded to `PrintRawLine`. -/
def processWrites (writes : List (List Char)) : List Char × List (List Char) :=
  writes.foldl (fun st d =>
    let r := writeBufferWrite st.1 d
    (r.1, st.2 ++ r.2)) ([], [])

/-- The non-empty newline-terminated segments of a character stream, in
order: what the compactor actually forwards. -/
def fwdLines (l : List Char) : List (List Char) :=
  (splitNL l).dropLast.filter (fun s => !s.isEmpty)

/-- The text after the last newline of a character stream: what must
remain buffered. -/
def lastSeg (l : List Char) : List Char :=
  (splitNL l).getLastD []

/-- Proof-side decomposition of `splitNL` into the complete segments and
the trailing partial segment: `splitNL l = (splitParts l).1 ++
[(splitParts l).2]`. -/
def splitParts : List Char → List (List Char) × List Char
  | [] => ([], [])
  | c :: l =>
    let r := splitParts l
    if c = '\n' then ([] :: r.1, r.2)
    else
      match r.1 with
      | [] => ([], c :: r.2)
      | d :: D => ((c :: d) :: D, r.2)

/-! ### Helper lemmas about the Go map model and the merge -/

theorem beq_key_comm (x y : String) : (x == y) = (y == x) := by
  by_cases h : x = y
  · simp [h]
  · simp [h, Ne.symm h]

theorem mapLookup_mapDelete_ne (m : List Attr) (k k' : String) (h : k' ≠ k) :
    mapLookup (mapDelete m k) k' = mapLookup m k' := by
  induction m with
  | nil => rfl
  | cons c m ih =>
    simp only [mapDelete, mapLookup] at ih ⊢
    by_cases hc : c.key = k
    · simp [List.filter_cons, List.find?_cons, hc, Ne.symm h, ih]
    · by_cases hck : c.key = k'
      · simp [List.filter_cons, List.find?_cons, hc, hck, h]
      · simp [List.filter_cons, List.find?_cons, hc, hck, h, ih]

theorem find?_key_eq_none (l : List Attr) (k : String) (h : k ∉ l.map Attr.key) :
    l.find? (fun b => b.key == k) = none := by
  rw [List.find?_eq_none]
  intro b hb
  simp only [beq_iff_eq]
  intro he
  exact h (by rw [← he]; exact List.mem_map_of_mem Attr.key hb)

theorem find?_key_unique (l : List Attr) (a : Attr) (hu : keyUnique l) (ha : a ∈ l) :
    l.find? (fun b => b.key == a.key) = some a := by
  induction l with
  | nil => cases ha
  | cons c l ih =>
    simp only [keyUnique, List.map_cons, List.nodup_cons] at hu
    rcases List.mem_cons.mp ha with h | h
    · subst h
      simp [List.find?_cons]
    · have hck : (c.key == a.key) = false := by
        rw [beq_eq_false_iff_ne]
        intro he
        exact hu.1 (by rw [he]; exact List.mem_map_of_mem Attr.key h)
      simp [List.find?_cons, hck, ih hu.2 h]

theorem find?_filter_key (l : List Attr) (a : Attr) (P : Attr → Bool)
    (hu : keyUnique l) (ha : a ∈ l) :
    (l.filter P).find? (fun b => b.key == a.key) = if P a then some a else none := by
  induction l with
  | nil => cases ha
  | cons c l ih =>
    simp only [keyUnique, List.map_cons, List.nodup_cons] at hu
    rcases List.mem_cons.mp ha with h | h
    · subst h
      by_cases hp : P a = true
      · simp [List.filter_cons, hp, List.find?_cons]
      · have hnone : (l.filter P).find? (fun b => b.key == a.key) = none := by
          apply find?_key_eq_none
          intro hmem
          rcases List.mem_map.mp hmem with ⟨b, hb, hbk⟩
          have hbm : b.key ∈ l.map Attr.key :=
            List.mem_map_of_mem Attr.key (List.mem_of_mem_filter hb)
          exact hu.1 (by rw [← hbk]; exact hbm)
        simp [List.filter_cons, hp, hnone]
    · have hck : (c.key == a.key) = false := by
        rw [beq_eq_false_iff_ne]
        intro he
        exact hu.1 (by rw [he]; exact List.mem_map_of_mem Attr.key h)
      by_cases hp : P c = true
      · simp [List.filter_cons, hp, List.find?_cons, hck, ih hu.2 h]
      · simp [List.filter_cons, hp, ih hu.2 h]

theorem buildKeyMap_go (attrs : List Attr) :
    ∀ m : List Attr, ((m ++ attrs).map Attr.key).Nodup →
      attrs.foldl mapInsert m = m ++ attrs := by
  induction attrs with
  | nil => intro m _; simp
  | cons a attrs ih =>
    intro m hm
    rw [List.map_append] at hm
    have hka : a.key ∉ m.map Attr.key := by
      intro hmem
      exact (List.nodup_append.mp hm).2.2 hmem (by simp)
    have hany : m.any (fun b => b.key == a.key) = false := by
      rw [List.any_eq_false]
      intro b hb
      simp only [beq_iff_eq]
      intro he
      exact hka (by rw [← he]; exact List.mem_map_of_mem Attr.key hb)
    have hstep : mapInsert m a = m ++ [a] := by
      simp [mapInsert, hany]
    rw [List.foldl_cons, hstep,
      ih (m ++ [a]) (by
        simp only [List.map_append, List.map_cons, List.map_nil,
          List.append_assoc, List.singleton_append, List.nil_append]
        simpa using hm)]
    simp

theorem buildKeyMap_self (attrs : List Attr) (h : keyUnique attrs) :
    buildKeyMap attrs = attrs := by
  have := buildKeyMap_go attrs [] (by simpa [keyUnique] using h)
  simpa [buildKeyMap] using this

theorem mergeLoop_eq (existing : List Attr) :
    ∀ m : List Attr, keyUnique existing →
      mergeLoop m existing =
        (m.filter (fun b => !(existing.any (fun a => a.key == b.key))),
         existing.map (fun a => (mapLookup m a.key).getD a)) := by
  induction existing with
  | nil =>
    intro m _
    simp [mergeLoop]
  | cons a ex ih =>
    intro m hu
    simp only [keyUnique, List.map_cons, List.nodup_cons] at hu
    have hex : keyUnique ex := hu.2
    have htail : ∀ a' ∈ ex, a'.key ≠ a.key := by
      intro a' ha' he
      exact hu.1 (by rw [← he]; exact List.mem_map_of_mem Attr.key ha')
    cases hfind : mapLookup m a.key with
    | some b =>
      have hrec := ih (mapDelete m a.key) hex
      simp only [mergeLoop, hfind, hrec, Prod.mk.injEq]
      constructor
      · rw [mapDelete, List.filter_filter]
        apply List.filter_congr
        intro b' _
        rw [List.any_cons, Bool.not_or, beq_key_comm a.key b'.key, Bool.and_comm]
      · rw [List.map_cons, hfind, Option.getD_some]
        congr 1
        apply List.map_congr_left
        intro a' ha'
        rw [mapLookup_mapDelete_ne m a.key a'.key (htail a' ha')]
    | none =>
      have hrec := ih m hex
      simp only [mergeLoop, hfind, hrec, Prod.mk.injEq]
      have hnone := List.find?_eq_none.mp hfind
      constructor
      · apply List.filter_congr
        intro b' hb'
        have hfa : (a.key == b'.key) = false := by
          rw [beq_key_comm]
          simpa using hnone b' hb'
        rw [List.any_cons, hfa, Bool.false_or]
      · rw [List.map_cons, hfind, Option.getD_none]

theorem mergeAttrs_eq_mergeSpec (existing attrs : List Attr)
    (hx : keyUnique existing) (ha : keyUnique attrs) :
    mergeAttrs existing attrs = mergeSpec existing attrs := by
  simp only [mergeAttrs]
  rw [buildKeyMap_self attrs ha, mergeLoop_eq existing attrs hx]
  simp only [mergeSpec]
  congr 1
  · apply List.map_congr_left
    intro a _
    simp only [mapLookup]
    cases hfind : attrs.find? (fun b => b.key == a.key) with
    | some b => rfl
    | none => rfl
  · apply List.filter_congr
    intro b hb
    simp only [mapLookup]
    rw [find?_filter_key attrs b
      (fun b' => !(existing.any (fun a => a.key == b'.key))) ha hb]
    cases hp : (existing.any (fun a => a.key == b.key)) <;> simp [hp]

theorem mergeSpec_keys (A B : List Attr) :
    (mergeSpec A B).map Attr.key =
      A.map Attr.key ++
        ((B.filter (fun b => !(A.any (fun a => a.key == b.key)))).map Attr.key) := by
  simp only [mergeSpec, List.map_append, List.map_map]
  congr 1
  apply List.map_congr_left
  intro a _
  simp only [Function.comp]
  cases hfind : B.find? (fun b => b.key == a.key) with
  | some b =>
    have := List.find?_some hfind
    simpa using this
  | none => rfl

theorem mergeSpec_keyUnique (A B : List Attr) (hA : keyUnique A) (hB : keyUnique B) :
    keyUnique (mergeSpec A B) := by
  simp only [keyUnique] at hA hB ⊢
  rw [mergeSpec_keys, List.nodup_append]
  refine ⟨hA, ?_, ?_⟩
  · exact List.Nodup.sublist ((List.filter_sublist B).map Attr.key) hB
  · intro k hk hkB
    rcases List.mem_map.mp hkB with ⟨b, hb, hbk⟩
    rcases List.mem_filter.mp hb with ⟨_, hQ⟩
    rcases List.mem_map.mp hk with ⟨a, haA, hak⟩
    have : A.any (fun a => a.key == b.key) = true := by
      rw [List.any_eq_true]
      exact ⟨a, haA, by simp [hak, hbk]⟩
    simp [this] at hQ

theorem mergeSpec_entry_of_mem (A B : List Attr) (hB : keyUnique B)
    (m : Attr) (hm : m ∈ mergeSpec A B) (b : Attr)
    (hfind : B.find? (fun x => x.key == m.key) = some b) : m = b := by
  rw [mergeSpec, List.mem_append] at hm
  rcases hm with hm | hm
  · rcases List.mem_map.mp hm with ⟨a, _, himg⟩
    cases hfa : B.find? (fun x => x.key == a.key) with
    | some b0 =>
      rw [hfa] at himg
      have hb0 : b0 ∈ B := List.mem_of_find?_eq_some hfa
      have hkey : B.find? (fun x => x.key == m.key) = some m := by
        rw [← himg]
        exact find?_key_unique B b0 hB hb0
      rw [hkey] at hfind
      injection hfind
    | none =>
      rw [hfa] at himg
      rw [← himg] at hfind
      rw [hfa] at hfind
      cases hfind
  · have hmB : m ∈ B := List.mem_of_mem_filter hm
    have hkey := find?_key_unique B m hB hmB
    rw [hkey] at hfind
    injection hfind

/-! ### Claim theorems: context merge -/

/-- C1: with a list attached, `WithAttrs` produces the order-preserving
override merge: shared keys keep their position in the existing list
with the value from the new attrs, existing-only keys keep position and
value, new-only keys are appended in their own order; with no list
attached, the new attrs are stored unchanged. -/
theorem c1_withAttrs_merge (existing attrs : List Attr)
    (hx : keyUnique existing) (ha : keyUnique attrs) :
    withAttrs (some existing) attrs = mergeSpec existing attrs ∧
    withAttrs none attrs = attrs :=
  ⟨mergeAttrs_eq_mergeSpec existing attrs hx ha, rfl⟩

/-- Witness for C1 at the Scenario A input of the spec. -/
theorem c1_witness :
    withAttrs (some [⟨"a", AVal.jv (Jv.str "1")⟩, ⟨"b", AVal.jv (Jv.str "2")⟩])
        [⟨"b", AVal.jv (Jv.str "3")⟩, ⟨"c", AVal.jv (Jv.str "4")⟩] =
      mergeSpec [⟨"a", AVal.jv (Jv.str "1")⟩, ⟨"b", AVal.jv (Jv.str "2")⟩]
        [⟨"b", AVal.jv (Jv.str "3")⟩, ⟨"c", AVal.jv (Jv.str "4")⟩] ∧
    withAttrs none [⟨"b", AVal.jv (Jv.str "3")⟩, ⟨"c", AVal.jv (Jv.str "4")⟩] =
      [⟨"b", AVal.jv (Jv.str "3")⟩, ⟨"c", AVal.jv (Jv.str "4")⟩] :=
  c1_withAttrs_merge _ _ (by decide) (by decide)

/-- C10: merging the same key-unique list twice is idempotent. -/
theorem c10_merge_idempotent (A B : List Attr) (hA : keyUnique A) (hB : keyUnique B) :
    mergeAttrs (mergeAttrs A B) B = mergeAttrs A B := by
  have hM : keyUnique (mergeSpec A B) := mergeSpec_keyUnique A B hA hB
  have hmain : mergeSpec (mergeSpec A B) B = mergeSpec A B := by
    have hmap :
        (mergeSpec A B).map (fun m =>
          match B.find? (fun b => b.key == m.key) with
          | some b => b
          | none => m) = (mergeSpec A B).map id := by
      apply List.map_congr_left
      intro m hm
      cases hfind : B.find? (fun x => x.key == m.key) with
      | some b => exact (mergeSpec_entry_of_mem A B hB m hm b hfind).symm
      | none => rfl
    have hfilter :
        B.filter (fun b => !((mergeSpec A B).any (fun a => a.key == b.key))) = [] := by
      rw [List.filter_eq_nil_iff]
      intro b hb
      have hany : (mergeSpec A B).any (fun a => a.key == b.key) = true := by
        rw [List.any_eq_true]
        by_cases hq : A.any (fun a => a.key == b.key) = true
        · rcases List.any_eq_true.mp hq with ⟨a, haA, hak⟩
          refine ⟨_, List.mem_append.mpr (Or.inl (List.mem_map_of_mem _ haA)), ?_⟩
          cases hfa : B.find? (fun x => x.key == a.key) with
          | some x =>
            have hx := List.find?_some hfa
            simp only [beq_iff_eq] at hx hak ⊢
            rw [hx, hak]
          | none => simpa using hak
        · refine ⟨b, List.mem_append.mpr (Or.inr (List.mem_filter.mpr ⟨hb, ?_⟩)), by simp⟩
          simp only [Bool.not_eq_true] at hq
          simp [hq]
      simp [hany]
    calc mergeSpec (mergeSpec A B) B
        = (mergeSpec A B).map id ++ ([] : List Attr) := by
          rw [mergeSpec, hmap, hfilter]
      _ = mergeSpec A B := by simp
  calc mergeAttrs (mergeAttrs A B) B
      = mergeSpec (mergeSpec A B) B := by
        rw [mergeAttrs_eq_mergeSpec A B hA hB, mergeAttrs_eq_mergeSpec _ B hM hB]
    _ = mergeSpec A B := hmain
    _ = mergeAttrs A B := (mergeAttrs_eq_mergeSpec A B hA hB).symm

/-- Witness for C10 at a concrete overlapping pair of lists. -/
theorem c10_witness :
    mergeAttrs
        (mergeAttrs [⟨"a", AVal.jv (Jv.int 1)⟩, ⟨"b", AVal.jv (Jv.int 2)⟩]
          [⟨"b", AVal.jv (Jv.int 3)⟩, ⟨"c", AVal.jv (Jv.int 4)⟩])
        [⟨"b", AVal.jv (Jv.int 3)⟩, ⟨"c", AVal.jv (Jv.int 4)⟩] =
      mergeAttrs [⟨"a", AVal.jv (Jv.int 1)⟩, ⟨"b", AVal.jv (Jv.int 2)⟩]
        [⟨"b", AVal.jv (Jv.int 3)⟩, ⟨"c", AVal.jv (Jv.int 4)⟩] :=
  c10_merge_idempotent _ _ (by decide) (by decide)

/-- C7: the claim that every AttributeList reachable through the public
constructors is well-formed fails on the code: `mapToAttrs` allocates
`make([]slog.Attr, len(keys))` and then appends, so
`WithFields(ctx, map[string]any)` with the single binding of key "a" to 1
on a fresh context attaches a list whose first element is the zero attr
with empty key.  This theorem evaluates the modelled code at that
failing input. -/
theorem c7_mapToAttrs_zero_attr :
    withFieldsMap none [("a", AVal.jv (Jv.int 1))] =
        [⟨"", AVal.jv Jv.null⟩, ⟨"a", AVal.jv (Jv.int 1)⟩] ∧
    ¬ wellFormed (withFieldsMap none [("a", AVal.jv (Jv.int 1))]) := by
  refine ⟨by decide, by decide⟩

/-! ### Helper lemmas for the emitter -/

theorem foldl_append_eq_join (f : (Ctx → List Attr) → List Attr)
    (l : List (Ctx → List Attr)) :
    ∀ init : List Attr,
      l.foldl (fun acc c => acc ++ f c) init = init ++ (l.map f).flatten := by
  induction l with
  | nil => intro init; simp
  | cons c l ih =>
    intro init
    rw [List.foldl_cons, ih (init ++ f c)]
    simp

theorem extractFields_eq_join (collectors : List (Ctx → List Attr)) (ctx : Ctx) :
    extractFields collectors ctx = (collectors.map (fun c => c ctx)).flatten := by
  rw [extractFields, foldl_append_eq_join (fun c => c ctx) collectors []]
  simp

theorem filter_length_join (p : Attr → Bool) (L : List (List Attr)) :
    ((L.flatten).filter p).length = (L.map (fun l => (l.filter p).length)).sum := by
  induction L with
  | nil => simp
  | cons l L ih => simp [List.filter_append, ih, Function.comp_def]

/-! ### Claim theorems: emitter -/

/-- C4: on a call that passes the level filter, the logger invokes every
registered collector in registration order and concatenates their
attribute lists; an attribute key emitted by several collectors is kept
once per collector (the per-key count of the aggregate is the sum of the
per-collector counts, so there is no cross-collector dedup). -/
theorem c4_collector_aggregation (sl : CallbackLogger) (ctx : Ctx)
    (level : Int) (msg : String) (h : sl.level ≤ level) :
    sl.log ctx level msg =
      some ⟨levelString level, msg, extractFields sl.collectors ctx⟩ ∧
    extractFields sl.collectors ctx = (sl.collectors.map (fun c => c ctx)).flatten ∧
    ∀ k : String,
      ((extractFields sl.collectors ctx).filter (fun a => a.key == k)).length =
        (sl.collectors.map (fun c => ((c ctx).filter (fun a => a.key == k)).length)).sum := by
  refine ⟨?_, extractFields_eq_join sl.collectors ctx, ?_⟩
  · rw [CallbackLogger.log, if_neg (not_lt.mpr h)]
  · intro k
    rw [extractFields_eq_join, filter_length_join, List.map_map]
    rfl

/-- Witness for C4: two collectors emitting the same key "k"; both
entries are kept in the aggregate. -/
theorem c4_witness :
    (CallbackLogger.log
        (⟨0, [fun _ => [⟨"k", AVal.jv (Jv.int 1)⟩],
              fun _ => [⟨"k", AVal.jv (Jv.int 2)⟩]]⟩ : CallbackLogger) none 0 "m" =
      some ⟨levelString 0, "m",
        extractFields
          (⟨0, [fun _ => [⟨"k", AVal.jv (Jv.int 1)⟩],
                fun _ => [⟨"k", AVal.jv (Jv.int 2)⟩]]⟩ : CallbackLogger).collectors
          none⟩) ∧
    ((extractFields
        (⟨0, [fun _ => [⟨"k", AVal.jv (Jv.int 1)⟩],
              fun _ => [⟨"k", AVal.jv (Jv.int 2)⟩]]⟩ : CallbackLogger).collectors
        none).filter (fun a => a.key == "k")).length =
      ((⟨0, [fun _ => [⟨"k", AVal.jv (Jv.int 1)⟩],
             fun _ => [⟨"k", AVal.jv (Jv.int 2)⟩]]⟩ : CallbackLogger).collectors.map
          (fun c => ((c none).filter (fun a => a.key == "k")).length)).sum := by
  have h := c4_collector_aggregation
    (⟨0, [fun _ => [⟨"k", AVal.jv (Jv.int 1)⟩],
          fun _ => [⟨"k", AVal.jv (Jv.int 2)⟩]]⟩ : CallbackLogger)
    none 0 "m" (by decide)
  exact ⟨h.1, h.2.2 "k"⟩

/-- C5: a call strictly below the threshold returns `none` (no callback
invocation, and the result does not depend on the collector list), a
call at or above it invokes the callback with exactly one entry; at an
INFO threshold, Debug yields nothing and Info yields one entry. -/
theorem c5_level_filter (sl : CallbackLogger) (ctx : Ctx) (level : Int) (msg : String) :
    (level < sl.level → sl.log ctx level msg = none ∧
      ∀ cols : List (Ctx → List Attr),
        CallbackLogger.log ⟨sl.level, cols⟩ ctx level msg = none) ∧
    (sl.level ≤ level →
      sl.log ctx level msg =
        some ⟨levelString level, msg, extractFields sl.collectors ctx⟩) ∧
    (sl.level = levelInfo →
      sl.debug ctx msg = none ∧
      sl.info ctx msg =
        some ⟨"INFO", msg, extractFields sl.collectors ctx⟩) := by
  refine ⟨?_, ?_, ?_⟩
  · intro h
    constructor
    · rw [CallbackLogger.log, if_pos h]
    · intro cols
      rw [CallbackLogger.log, if_pos h]
  · intro h
    rw [CallbackLogger.log, if_neg (not_lt.mpr h)]
  · intro h
    have hinfo : levelString levelInfo = "INFO" := by decide
    constructor
    · rw [CallbackLogger.debug, CallbackLogger.log, if_pos (by rw [h]; decide)]
    · rw [CallbackLogger.info, CallbackLogger.log, if_neg (by rw [h]; decide), hinfo]

/-- Witness for C5: a logger at the INFO threshold suppresses Debug and
emits one entry for Info. -/
theorem c5_witness :
    CallbackLogger.debug ⟨levelInfo, []⟩ none "x" = none ∧
    CallbackLogger.info ⟨levelInfo, []⟩ none "x" =
      some ⟨"INFO", "x", extractFields [] none⟩ :=
  (c5_level_filter ⟨levelInfo, []⟩ none 0 "x").2.2 rfl

/-! ### Helper lemmas for the JSON renderer -/

theorem attrMapMarshalJSON_ok (l : List Attr) (h : allEncodable l) :
    attrMapMarshalJSON l = .ok (fieldsToJ l) := by
  induction l with
  | nil => rfl
  | cons a l ih =>
    have ha := h a (by simp)
    have hrest : allEncodable l := fun b hb => h b (by simp [hb])
    cases hv : a.value with
    | jv j =>
      rw [attrMapMarshalJSON]
      rw [show marshalValue a.value = .ok j by rw [hv]; rfl]
      rw [ih hrest, fieldsToJ, hv]
    | unencodable t =>
      rw [hv] at ha
      cases ha

theorem attrMapMarshalJSON_err (l : List Attr) (h : ¬ allEncodable l) :
    ∃ t, attrMapMarshalJSON l = .error t := by
  induction l with
  | nil => exact absurd (fun a ha => by cases ha) h
  | cons a l ih =>
    cases hv : a.value with
    | jv j =>
      have hrest : ¬ allEncodable l := by
        intro hall
        apply h
        intro b hb
        rcases List.mem_cons.mp hb with hb | hb
        · rw [hb, hv]; rfl
        · exact hall b hb
      rcases ih hrest with ⟨t, ht⟩
      refine ⟨t, ?_⟩
      rw [attrMapMarshalJSON]
      rw [show marshalValue a.value = .ok j by rw [hv]; rfl]
      rw [ht]
    | unencodable t =>
      refine ⟨t, ?_⟩
      rw [attrMapMarshalJSON]
      rw [show marshalValue a.value = .error t by rw [hv]; rfl]

theorem fieldsToJ_keys (l : List Attr) :
    (fieldsToJ l).keys = l.map Attr.key := by
  induction l with
  | nil => rfl
  | cons a l ih => simp [fieldsToJ, JFields.keys, ih]

/-! ### Claim theorems: JSON renderer -/

/-- C3: the JSON renderer is total: every entry produces one JSON object
line whose level, time and message fields are those of the entry (the
message is never dropped and no encoding error escapes to the caller);
when some attribute value is unencodable, the rendered object carries an
empty fields object in place of the attribute data. -/
theorem c3_jsonFormatter_degrade (e : LogEntry) :
    (∃ fs : JFields, jsonFormatter e =
      Jv.obj (.cons "level" (.str e.level) (.cons "time" (.str e.time)
        (.cons "message" (.str e.message) (.cons "fields" (.obj fs) .nil))))) ∧
    (¬ allEncodable e.fields → jsonFormatter e =
      Jv.obj (.cons "level" (.str e.level) (.cons "time" (.str e.time)
        (.cons "message" (.str e.message) (.cons "fields" (.obj .nil) .nil))))) := by
  have hdeg : ¬ allEncodable e.fields → jsonFormatter e =
      Jv.obj (.cons "level" (.str e.level) (.cons "time" (.str e.time)
        (.cons "message" (.str e.message) (.cons "fields" (.obj .nil) .nil)))) := by
    intro h
    rcases attrMapMarshalJSON_err e.fields h with ⟨t, ht⟩
    rw [jsonFormatter, marshalLogEntry, ht]
    rfl
  constructor
  · by_cases h : allEncodable e.fields
    · refine ⟨fieldsToJ e.fields, ?_⟩
      rw [jsonFormatter, marshalLogEntry, attrMapMarshalJSON_ok e.fields h]
    · exact ⟨.nil, hdeg h⟩
  · exact hdeg

/-- Witness for C3 at the input of the repository test
`TestSimpleFormatterError`: an entry holding one unencodable value still
renders, with the correct level, time and message and empty fields. -/
theorem c3_witness :
    jsonFormatter ⟨"DEBUG", "t0", "Message", [⟨"key", AVal.unencodable "Error"⟩]⟩ =
      Jv.obj (.cons "level" (.str "DEBUG") (.cons "time" (.str "t0")
        (.cons "message" (.str "Message") (.cons "fields" (.obj .nil) .nil)))) :=
  (c3_jsonFormatter_degrade ⟨"DEBUG", "t0", "Message",
    [⟨"key", AVal.unencodable "Error"⟩]⟩).2 (by decide)

/-- C6: when all attribute values are encodable, the JSON renderer writes
the fields object in attribute-list order, and parsing the line back
recovers the original level, message, and field set in that same
order. -/
theorem c6_json_round_trip (e : LogEntry) (h : allEncodable e.fields) :
    marshalLogEntry e =
      .ok (Jv.obj (.cons "level" (.str e.level) (.cons "time" (.str e.time)
        (.cons "message" (.str e.message)
          (.cons "fields" (.obj (fieldsToJ e.fields)) .nil))))) ∧
    (fieldsToJ e.fields).keys = e.fields.map Attr.key ∧
    parseEntry (jsonFormatter e) = some (e.level, e.message, fieldsToJ e.fields) := by
  have hok : marshalLogEntry e =
      .ok (Jv.obj (.cons "level" (.str e.level) (.cons "time" (.str e.time)
        (.cons "message" (.str e.message)
          (.cons "fields" (.obj (fieldsToJ e.fields)) .nil))))) := by
    rw [marshalLogEntry, attrMapMarshalJSON_ok e.fields h]
  refine ⟨hok, fieldsToJ_keys e.fields, ?_⟩
  rw [jsonFormatter, hok]
  simp [parseEntry, JFields.get?]

/-- Witness for C6 at an entry whose field order is not alphabetical: the
round trip preserves the list order b before a. -/
theorem c6_witness :
    parseEntry (jsonFormatter ⟨"INFO", "t1", "m",
        [⟨"b", AVal.jv (Jv.int 2)⟩, ⟨"a", AVal.jv (Jv.int 1)⟩]⟩) =
      some ("INFO", "m",
        .cons "b" (Jv.int 2) (.cons "a" (Jv.int 1) .nil)) :=
  (c6_json_round_trip ⟨"INFO", "t1", "m",
    [⟨"b", AVal.jv (Jv.int 2)⟩, ⟨"a", AVal.jv (Jv.int 1)⟩]⟩ (by decide)).2.2

/-! ### Claim theorems: stream compactor -/

/-- C2: a JSON line whose fields, after removal of the time key, equal the
retained snapshot makes the compactor emit exactly one dot (no newline),
set the dot-run flag, and leave the snapshot as is, re-rendering
nothing; and the spec Scenario C — three identical lines up to time,
then one different line — produces one rendered block, a dot run of
length two, then a terminating newline and one new rendered block. -/
theorem c2_compactor_dots (p : Printer) (np raw : String) (fs : JFields)
    (h : p.lastLine = some (fs.erase "time")) :
    printRawLine p np (.json raw fs) = ({ p with didDots := true }, [Out.dot]) ∧
    (printLines newPrinter ""
        [.json "r1" (.cons "fields" (.obj .nil) (.cons "level" (.str "info")
            (.cons "message" (.str "m") (.cons "time" (.str "t1") .nil)))),
         .json "r2" (.cons "fields" (.obj .nil) (.cons "level" (.str "info")
            (.cons "message" (.str "m") (.cons "time" (.str "t2") .nil)))),
         .json "r3" (.cons "fields" (.obj .nil) (.cons "level" (.str "info")
            (.cons "message" (.str "m") (.cons "time" (.str "t3") .nil)))),
         .json "r4" (.cons "fields" (.obj .nil) (.cons "level" (.str "info")
            (.cons "message" (.str "n") (.cons "time" (.str "t4") .nil))))]).2 =
      [Out.sep, Out.line "info: m", Out.fieldLines .nil,
       Out.dot, Out.dot,
       Out.newline, Out.sep, Out.line "info: n", Out.fieldLines .nil] := by
  constructor
  · rw [printRawLine, h]
    simp
  · decide

/-- Witness for C2: one concrete duplicate line produces exactly one dot
and sets the dot-run flag. -/
theorem c2_witness :
    printRawLine
        ⟨"", false, some (.cons "level" (.str "info")
          (.cons "message" (.str "m") .nil))⟩ ""
        (.json "r" (.cons "level" (.str "info") (.cons "message" (.str "m")
          (.cons "time" (.str "t9") .nil)))) =
      (⟨"", true, some (.cons "level" (.str "info")
        (.cons "message" (.str "m") .nil))⟩, [Out.dot]) :=
  (c2_compactor_dots
    ⟨"", false, some (.cons "level" (.str "info") (.cons "message" (.str "m") .nil))⟩
    "" "r"
    (.cons "level" (.str "info") (.cons "message" (.str "m")
      (.cons "time" (.str "t9") .nil)))
    (by decide)).1

/-- C8: the claim that a free-text line first terminates a pending dot-run
with a newline fails on `Printer.PrintRawLine`: the code clears
`didDots` and resets the snapshot before calling `writef`, so `writef`
never sees the pending run and no newline is emitted; the separator is
printed directly after the dots.  (The standalone logcat main, part_001,
does flush the newline, which is the behaviour the spec describes.)
This theorem evaluates the modelled code with an active dot-run: the
snapshot reset and the verbatim print happen, but no newline token is
emitted. -/
theorem c8_text_line_no_flush :
    printRawLine ⟨"", true, some (.cons "level" (.str "info") .nil)⟩ ""
        (.text "server starting") =
      (⟨"", false, some .nil⟩, [Out.sep, Out.line "server starting"]) ∧
    Out.newline ∉
      (printRawLine ⟨"", true, some (.cons "level" (.str "info") .nil)⟩ ""
        (.text "server starting")).2 := by
  refine ⟨by decide, by decide⟩

/-! ### Helper lemmas for the byte-stream adapter -/

theorem splitNL_cons (c : Char) (l : List Char) :
    splitNL (c :: l) =
      if c = '\n' then [] :: splitNL l else consFirst c (splitNL l) := rfl

theorem splitParts_cons (c : Char) (l : List Char) :
    splitParts (c :: l) =
      if c = '\n' then ([] :: (splitParts l).1, (splitParts l).2)
      else
        match (splitParts l).1 with
        | [] => ([], c :: (splitParts l).2)
        | d :: D => ((c :: d) :: D, (splitParts l).2) := rfl

theorem splitParts_spec (l : List Char) :
    splitNL l = (splitParts l).1 ++ [(splitParts l).2] := by
  induction l with
  | nil => rfl
  | cons c l ih =>
    rw [splitNL_cons, splitParts_cons]
    by_cases hc : c = '\n'
    · rw [if_pos hc, if_pos hc, ih]
      rfl
    · rw [if_neg hc, if_neg hc, ih]
      cases hP : (splitParts l).1 with
      | nil => simp [consFirst]
      | cons d D => simp [consFirst]

theorem splitParts_snd_no_newline (l : List Char) : '\n' ∉ (splitParts l).2 := by
  induction l with
  | nil => simp [splitParts]
  | cons c l ih =>
    rw [splitParts_cons]
    by_cases hc : c = '\n'
    · rw [if_pos hc]
      exact ih
    · rw [if_neg hc]
      cases hP : (splitParts l).1 with
      | nil =>
        intro hmem
        rcases List.mem_cons.mp hmem with h | h
        · exact hc h.symm
        · exact ih h
      | cons d D => exact ih

theorem splitParts_no_newline (l : List Char) (h : '\n' ∉ l) :
    splitParts l = ([], l) := by
  induction l with
  | nil => rfl
  | cons c l ih =>
    have hc : ¬ c = '\n' := fun he => h (by rw [he]; exact List.mem_cons_self _ _)
    have hl : '\n' ∉ l := fun hm => h (List.mem_cons_of_mem c hm)
    rw [splitParts_cons, if_neg hc, ih hl]

theorem splitParts_append (x y : List Char) :
    splitParts (x ++ y) =
      ((splitParts x).1 ++ (splitParts ((splitParts x).2 ++ y)).1,
       (splitParts ((splitParts x).2 ++ y)).2) := by
  induction x with
  | nil => simp [splitParts]
  | cons c x ih =>
    have hstep : splitParts ((c :: x) ++ y) = splitParts (c :: (x ++ y)) := rfl
    by_cases hc : c = '\n'
    · have h1 : splitParts (c :: x) = ([] :: (splitParts x).1, (splitParts x).2) := by
        rw [splitParts_cons, if_pos hc]
      rw [hstep, splitParts_cons, if_pos hc, ih, h1]
      simp
    · cases hP : (splitParts x).1 with
      | nil =>
        have h1 : splitParts (c :: x) = ([], c :: (splitParts x).2) := by
          rw [splitParts_cons, if_neg hc, hP]
        have h2 : splitParts (c :: ((splitParts x).2 ++ y)) =
            (match (splitParts ((splitParts x).2 ++ y)).1 with
              | [] => ([], c :: (splitParts ((splitParts x).2 ++ y)).2)
              | d :: D => ((c :: d) :: D, (splitParts ((splitParts x).2 ++ y)).2)) := by
          rw [splitParts_cons, if_neg hc]
        rw [hstep, splitParts_cons, if_neg hc, ih, hP, h1]
        simp only [List.nil_append, List.cons_append, h2]
      | cons p Ps =>
        have h1 : splitParts (c :: x) = ((c :: p) :: Ps, (splitParts x).2) := by
          rw [splitParts_cons, if_neg hc, hP]
        rw [hstep, splitParts_cons, if_neg hc, ih, hP, h1]
        simp only [List.cons_append]

theorem writeBufferWrite_eq (buffer data : List Char) :
    writeBufferWrite buffer data =
      ((splitParts (buffer ++ data)).2,
       (splitParts (buffer ++ data)).1.filter (fun l => !l.isEmpty)) := by
  rw [writeBufferWrite]
  by_cases hc : (buffer ++ data).contains '\n'
  · rw [if_pos hc, splitParts_spec (buffer ++ data)]
    simp only [List.getLastD_concat, List.dropLast_concat]
  · rw [if_neg hc]
    have hnm : '\n' ∉ buffer ++ data := by
      intro hm
      apply hc
      rw [List.contains_eq_any_beq, List.any_eq_true]
      exact ⟨'\n', hm, by simp⟩
    rw [splitParts_no_newline _ hnm]
    simp

theorem processFrom (ws : List (List Char)) :
    ∀ (buf : List Char) (outs : List (List Char)), '\n' ∉ buf →
      ws.foldl (fun st d =>
          let r := writeBufferWrite st.1 d
          (r.1, st.2 ++ r.2)) (buf, outs) =
        ((splitParts (buf ++ ws.flatten)).2,
         outs ++ (splitParts (buf ++ ws.flatten)).1.filter (fun l => !l.isEmpty)) := by
  induction ws with
  | nil =>
    intro buf outs h
    rw [List.foldl_nil, List.flatten_nil, List.append_nil,
      splitParts_no_newline buf h]
    simp
  | cons d ws ih =>
    intro buf outs h
    rw [List.foldl_cons]
    simp only [writeBufferWrite_eq buf d]
    rw [ih ((splitParts (buf ++ d)).2) _ (splitParts_snd_no_newline (buf ++ d))]
    rw [List.flatten_cons, ← List.append_assoc,
      splitParts_append (buf ++ d) ws.flatten]
    simp [List.filter_append, List.append_assoc]

/-! ### Claim theorems: byte-stream adapter -/

/-- C9 counterexample: the claim says every complete newline-terminated
line of the stream is forwarded; the code skips lines equal to the empty
string, so the write of the bytes of "a", newline, newline, "b",
newline forwards only two lines instead of the three complete lines. -/
theorem c9_counterexample_empty_line :
    (processWrites ["a\n\nb\n".toList]).2 ≠ (splitNL ("a\n\nb\n".toList)).dropLast := by
  decide

/-- C9 (amended): across every sequence of writes from the empty buffer,
the forwarded lines are exactly the non-empty complete newline-terminated
lines of the concatenated stream, exactly once and in order (complete
empty lines are dropped); after every write sequence the buffer holds
exactly the bytes after the last newline seen, and that retained partial
line contains no newline, so it is never forwarded or parsed. -/
theorem c9_writeBuffer_amended (writes : List (List Char)) :
    processWrites writes = (lastSeg writes.flatten, fwdLines writes.flatten) ∧
    '\n' ∉ (processWrites writes).1 := by
  have h := processFrom writes [] [] (by simp)
  have hlast : lastSeg writes.flatten = (splitParts writes.flatten).2 := by
    rw [lastSeg, splitParts_spec, List.getLastD_concat]
  have hfwd : fwdLines writes.flatten =
      (splitParts writes.flatten).1.filter (fun s => !s.isEmpty) := by
    rw [fwdLines, splitParts_spec, List.dropLast_concat]
  rw [List.nil_append] at h
  constructor
  · rw [processWrites, h, hlast, hfwd]
    simp
  · rw [processWrites, h]
    exact splitParts_snd_no_newline _

end LogGo
